import Mathlib

/-!
# Verification of the spectrum-analyser core (Source/MainComponent.h)

Shallow embedding of the analyser component:

* `fftOrder`, `fftSize` — the enum constants of `MainComponent` (lines 303–310).
* `freqToBin` — `MainComponent::freqToBin` (lines 235–239).  C++ floats/doubles
  are modelled as exact rationals; `round` in C++ rounds half away from zero,
  which agrees with Lean's `round` (half up) on all non-negative arguments and
  on the non-half-integer negative arguments used in the theorems below.
  IEEE division by a zero sample rate yields `inf`/`NaN`, whose comparison with
  `fftSize/2` is false, so the C++ function returns `fftSize - 1` in that case;
  the model mirrors this with an explicit test.
* `Bar`, `buildBarsAux`, `buildBars` — the bar-construction walk of
  `MainComponent::buildTemperedScale` (lines 179–232).  The walk consumes the
  list of FFT bins of the tempered-scale frequencies (the frequencies enter
  the loop only through `freqToBin`), carrying the `prevBin` / `prevIdx` /
  `nBars` locals and the `allBars` accumulator of the C++ loop.
* `patchRun` — the retroactive interpolation-factor assignment
  (lines 202–207).
* `buildTemperedScaleStep` — one call of `MainComponent::buildTemperedScale`
  acting on the member vectors `temperedScale`/`allBars` (lines 162–233): the
  call appends the generated frequencies to `temperedScale` without clearing
  it, then walks the whole (appended) `temperedScale`, pushing onto the
  existing `allBars`.  The frequency generation loop (lines 164–177) depends
  only on the configuration, so its output is passed in as the `newFreqs`
  argument; the retro-patching of a call touches only bars pushed by that same
  call (at patch time `nBars` never exceeds the number of bars the call has
  pushed), so a call appends `buildBars` of the full scale.
* `IngestState`, `pushNextSampleIntoFifo`, `pushAll` — the sample fifo of
  `MainComponent::pushNextSampleIntoFifo` (lines 125–142) together with the
  `fifo`/`fftData`/`fifoIndex`/`nextFFTBlockReady` members (lines 315–318).
  `zeromem` followed by `memcpy` of the `fftSize`-float fifo into the
  `2*fftSize`-float `fftData` leaves `fifo ++ (fftSize zeros)`.
* `gainToDecibels`, `jlimit`, `jmap`, `getLevel` — `MainComponent::getLevel`
  (lines 252–262) with the JUCE helpers it calls
  (`juce::Decibels::gainToDecibels` with its default −100 dB floor,
  `juce::jlimit`, `juce::jmap`), over the reals.
* `aggBarHeight` — the bin-range aggregation branch of
  `MainComponent::drawFrame` (lines 287–293): the loop
  `for (j = dataIdx; j <= endIdx; ++j) if (fftData[j] > barHeight)
  barHeight = getLevel (j, windowHeight);`.

`idxsFrom`, `pbSeq`, `ramp`, `patchF`, `factorsOfAux`, `factorsOf` are
projections of the walk (the assigned starting bins, the `prevBin` values at
loop entry, and the factor bookkeeping) used to state and prove properties of
`buildBars`.
-/

def fftOrder : ℕ := 11

def fftSize : ℕ := 2 ^ fftOrder

/-- `MainComponent::freqToBin` (lines 235–239):
`bin = round((freq * fftSize) / _sampleRate); return bin < fftSize/2 ? bin : fftSize - 1`. -/
def freqToBin (sampleRate freq : ℚ) : ℤ :=
  if sampleRate = 0 then (fftSize : ℤ) - 1
  else
    let bin : ℤ := round (freq * (fftSize : ℚ) / sampleRate)
    if bin < (fftSize : ℤ) / 2 then bin else (fftSize : ℤ) - 1

/-- The `Bar` class (lines 55–61). -/
structure Bar where
  posX : ℤ
  dataIdx : ℤ
  endIdx : ℤ
  factor : ℚ
deriving DecidableEq, Repr

/-- Lines 212–221: `prevBin = bin`, then if there is a next band whose bin is
more than 1 away, `prevBin += round((nextBin - bin) / 2)`. -/
def extendPrevBin (bin : ℤ) (next? : Option ℤ) : ℤ :=
  match next? with
  | some nextBin => if nextBin - bin > 1 then bin + round (((nextBin - bin : ℤ) : ℚ) / 2) else bin
  | none => bin

/-- The factor update of lines 203–206: the bar at offset `iFactor` within
the run receives factor `(iFactor + 1) / nBars`. -/
def patchFun (nBars : ℕ) (p : ℕ × Bar) : Bar :=
  { p.2 with factor := ((p.1 : ℚ) + 1) / (nBars : ℚ) }

/-- Lines 202–207: set the factor of the last `nBars` accumulated bars to
`(iFactor + 1) / nBars` for `iFactor = 0, …, nBars - 1`. -/
def patchRun (bars : List Bar) (nBars : ℕ) : List Bar :=
  bars.take (bars.length - nBars) ++
    ((bars.drop (bars.length - nBars)).enum.map (patchFun nBars))

/-- The loop body of lines 183–232, with state `prevBin`, `prevIdx`, `nBars`,
the `allBars` accumulator, and the loop `index`; the remaining list holds the
FFT bins of the remaining tempered-scale frequencies (`rest.head?` is the
look-ahead `freqToBin(temperedScale[index + 1])`). -/
def buildBarsAux : ℤ → ℤ → ℕ → List Bar → ℕ → List ℤ → List Bar
  | _, _, _, acc, _, [] => acc
  | prevBin, prevIdx, nBars, acc, index, bin :: rest =>
    let idx : ℤ := if prevBin > 0 ∧ prevBin + 1 ≤ bin then prevBin + 1 else bin
    let acc1 := if idx = prevIdx then acc else (if nBars > 1 then patchRun acc nBars else acc)
    let nBars1 := if idx = prevIdx then nBars + 1 else 1
    let prevIdx1 := if idx = prevIdx then prevIdx else idx
    let prevBin1 := extendPrevBin bin rest.head?
    let endIdx : ℤ := if prevBin1 - idx > 0 then prevBin1 else 0
    buildBarsAux prevBin1 prevIdx1 nBars1 (acc1 ++ [⟨(index : ℤ), idx, endIdx, 0⟩]) (index + 1) rest

/-- The bar-construction walk of `buildTemperedScale` (lines 179–232) on the
list of FFT bins of the tempered scale, from the initial
`prevBin = prevIdx = nBars = 0` and an empty accumulator. -/
def buildBars (bins : List ℤ) : List Bar := buildBarsAux 0 0 0 [] 0 bins

/-- The sequence of starting bins (`idx` at line 190–195) the walk assigns,
given the `prevBin` entering the first remaining iteration. -/
def idxsFrom (prevBin : ℤ) : List ℤ → List ℤ
  | [] => []
  | bin :: rest =>
    (if prevBin > 0 ∧ prevBin + 1 ≤ bin then prevBin + 1 else bin) ::
      idxsFrom (extendPrevBin bin rest.head?) rest

/-- The value of the `prevBin` local at entry to each loop iteration. -/
def pbSeq (prevBin : ℤ) : List ℤ → List ℤ
  | [] => []
  | bin :: rest => prevBin :: pbSeq (extendPrevBin bin rest.head?) rest

/-- The factors `1/k, 2/k, …, k/k` assigned to a finished run of length `k`. -/
def ramp (k : ℕ) : List ℚ := (List.range k).map fun (i : ℕ) => ((i : ℚ) + 1) / (k : ℚ)

/-- `patchRun` on the factor column alone. -/
def patchF (A : List ℚ) (n : ℕ) : List ℚ := A.take (A.length - n) ++ ramp n

/-- The factor bookkeeping of the walk (lines 196–210) on the sequence of
assigned starting bins: state `prevIdx`, `nBars`, and the accumulated factor
column. -/
def factorsOfAux : ℤ → ℕ → List ℚ → List ℤ → List ℚ
  | _, _, A, [] => A
  | prevIdx, nBars, A, idx :: rest =>
    if idx = prevIdx then factorsOfAux prevIdx (nBars + 1) (A ++ [0]) rest
    else factorsOfAux idx 1 ((if nBars > 1 then patchF A nBars else A) ++ [0]) rest

/-- The factor column produced for a given sequence of assigned starting bins. -/
def factorsOf (s : List ℤ) : List ℚ := factorsOfAux 0 0 [] s

/-- The members `fifo`, `fftData`, `fifoIndex`, `nextFFTBlockReady`
(lines 315–318). -/
structure IngestState where
  fifo : List ℚ
  fftData : List ℚ
  fifoIndex : ℕ
  nextFFTBlockReady : Bool
deriving DecidableEq, Repr

/-- `MainComponent::pushNextSampleIntoFifo` (lines 125–142). -/
def pushNextSampleIntoFifo (st : IngestState) (sample : ℚ) : IngestState :=
  let st1 :=
    if st.fifoIndex = fftSize then
      if !st.nextFFTBlockReady then
        { st with fftData := st.fifo ++ List.replicate fftSize 0,
                  nextFFTBlockReady := true, fifoIndex := 0 }
      else { st with fifoIndex := 0 }
    else st
  { st1 with fifo := st1.fifo.set st1.fifoIndex sample, fifoIndex := st1.fifoIndex + 1 }

/-- Pushing a block of samples one by one (`getNextAudioBlock`, lines 94–104). -/
def pushAll (st : IngestState) (samples : List ℚ) : IngestState :=
  samples.foldl pushNextSampleIntoFifo st

/-- The member vectors `temperedScale` and `allBars` (lines 319–320). -/
structure ScaleState where
  temperedScale : List ℚ
  allBars : List Bar
deriving DecidableEq, Repr

/-- One call of `MainComponent::buildTemperedScale` (lines 162–233).
`newFreqs` is the output of the frequency-generation loop (lines 164–177),
which depends only on the configuration (`groupNotes`, `minFreq`, `maxFreq`),
so identical configurations supply identical `newFreqs`.  The call appends the
frequencies to the member vector `temperedScale` (never cleared), then runs
the bar walk over the whole appended scale, appending onto the member vector
`allBars`; the walk's retro-patching only touches bars pushed by this call. -/
def buildTemperedScaleStep (newFreqs : List ℚ) (sampleRate : ℚ) (st : ScaleState) : ScaleState :=
  let ts := st.temperedScale ++ newFreqs
  { temperedScale := ts, allBars := st.allBars ++ buildBars (ts.map (freqToBin sampleRate)) }

open scoped Classical in
/-- `juce::Decibels::gainToDecibels` with the default −100 dB floor:
`gain > 0 ? jmax (-100, std::log10 (gain) * 20) : -100`. -/
noncomputable def gainToDecibels (gain : ℝ) : ℝ :=
  if 0 < gain then max (-100) (20 * Real.logb 10 gain) else -100

open scoped Classical in
/-- `juce::jlimit (lower, upper, value)`:
`value < lower ? lower : upper < value ? upper : value`. -/
noncomputable def jlimit (lower upper value : ℝ) : ℝ :=
  if value < lower then lower else if upper < value then upper else value

/-- `juce::jmap (value, sourceMin, sourceMax, targetMin, targetMax)`. -/
noncomputable def jmap (v s0 s1 t0 t1 : ℝ) : ℝ := t0 + ((t1 - t0) * (v - s0)) / (s1 - s0)

/-- `MainComponent::getLevel` (lines 252–262). -/
noncomputable def getLevel (fftData : ℕ → ℝ) (i : ℕ) (height : ℝ) : ℝ :=
  let db := jlimit (-100) 0 (gainToDecibels (fftData i) - gainToDecibels ((fftSize : ℕ) : ℝ))
  jmap db (-100) 0 height 0

open scoped Classical in
/-- The aggregation branch of `MainComponent::drawFrame` (lines 287–293): from
`barHeight = 0`, for `j = dataIdx, …, endIdx`: if `fftData[j] > barHeight`
then `barHeight = getLevel (j, height)`. -/
noncomputable def aggBarHeight (fftData : ℕ → ℝ) (height : ℝ) (dataIdx endIdx : ℕ) : ℝ :=
  (List.range' dataIdx (endIdx + 1 - dataIdx)).foldl
    (fun barHeight j => if fftData j > barHeight then getLevel fftData j height else barHeight) 0

/-- A concrete spectrum buffer for exercising the aggregation branch: a very
quiet bin 3 (magnitude 1/100, which clamps to the −100 dB floor) directly next
to a much louder bin 4 (magnitude 1). -/
noncomputable def c1Spectrum : ℕ → ℝ := fun j =>
  if j = 3 then 1 / 100 else if j = 4 then 1 else 0

/-! ## Lemmas about the sample fifo (ingest path) -/

theorem fftSize_pos : 0 < fftSize := by norm_num [fftSize, fftOrder]

theorem pushNext_of_fifoIndex_lt (fifo fd : List ℚ) (i : ℕ) (r : Bool) (w : ℚ)
    (h : i < fftSize) :
    pushNextSampleIntoFifo ⟨fifo, fd, i, r⟩ w = ⟨fifo.set i w, fd, i + 1, r⟩ := by
  simp [pushNextSampleIntoFifo, Nat.ne_of_lt h]

theorem pushAll_fill : ∀ (ws : List ℚ) (fifo fd : List ℚ) (i : ℕ) (r : Bool),
    fifo.length = fftSize → i + ws.length ≤ fftSize →
    pushAll ⟨fifo, fd, i, r⟩ ws =
      ⟨fifo.take i ++ ws ++ fifo.drop (i + ws.length), fd, i + ws.length, r⟩
  | [], fifo, fd, i, r, hlen, hle => by
    simp [pushAll, List.take_append_drop]
  | w :: ws, fifo, fd, i, r, hlen, hle => by
    have hidx : i < fftSize := by
      have : 0 < (w :: ws).length := by simp
      omega
    have hstep := pushNext_of_fifoIndex_lt fifo fd i r w hidx
    have hlen' : (fifo.set i w).length = fftSize := by simpa using hlen
    have hrec := pushAll_fill ws (fifo.set i w) fd (i + 1) r hlen'
      (by simp at hle ⊢; omega)
    have hfold : pushAll ⟨fifo, fd, i, r⟩ (w :: ws) =
        pushAll (pushNextSampleIntoFifo ⟨fifo, fd, i, r⟩ w) ws := by
      simp [pushAll]
    rw [hfold, hstep, hrec]
    have hilen : i < fifo.length := by omega
    have hset := List.set_eq_take_cons_drop w hilen
    have htake : (fifo.set i w).take (i + 1) = fifo.take i ++ [w] := by
      rw [hset, List.take_append_eq_append_take]
      have h1 : (fifo.take i).length = i := by simp; omega
      rw [List.take_of_length_le (by omega), h1]
      simp
    have hdrop : (fifo.set i w).drop (i + 1 + ws.length) = fifo.drop (i + (ws.length + 1)) := by
      rw [hset, List.drop_append_eq_append_drop]
      have h1 : (fifo.take i).length = i := by simp; omega
      rw [List.drop_eq_nil_of_le (by omega), h1]
      have h2 : i + 1 + ws.length - i = ws.length + 1 := by omega
      rw [h2, List.nil_append, List.drop_succ_cons, List.drop_drop]
      congr 1
      omega
    rw [htake, hdrop]
    simp [IngestState.mk.injEq]
    omega

theorem pushAll_two_windows (w1 w2 fifo0 fd0 : List ℚ)
    (h1 : w1.length = fftSize) (h2 : w2.length = fftSize) (hf : fifo0.length = fftSize) :
    pushAll ⟨fifo0, fd0, 0, false⟩ (w1 ++ w2) =
      ⟨w2, w1 ++ List.replicate fftSize 0, fftSize, true⟩ := by
  have hsplit : pushAll ⟨fifo0, fd0, 0, false⟩ (w1 ++ w2) =
      pushAll (pushAll ⟨fifo0, fd0, 0, false⟩ w1) w2 := by
    simp [pushAll, List.foldl_append]
  rw [hsplit, pushAll_fill w1 fifo0 fd0 0 false hf (by omega)]
  have hdropnil : fifo0.drop (0 + w1.length) = [] := List.drop_eq_nil_of_le (by omega)
  rw [hdropnil]
  simp only [List.take_zero, List.nil_append, List.append_nil, Nat.zero_add]
  cases w2 with
  | nil =>
    rw [List.length_nil] at h2
    exact absurd h2.symm (Nat.ne_of_gt fftSize_pos)
  | cons s w2' =>
    have hN : 0 < fftSize := fftSize_pos
    have hstep : pushNextSampleIntoFifo ⟨w1, fd0, w1.length, false⟩ s =
        ⟨w1.set 0 s, w1 ++ List.replicate fftSize 0, 1, true⟩ := by
      simp [pushNextSampleIntoFifo, h1]
    have hfold : pushAll (⟨w1, fd0, w1.length, false⟩ : IngestState) (s :: w2') =
        pushAll (pushNextSampleIntoFifo ⟨w1, fd0, w1.length, false⟩ s) w2' := by
      simp [pushAll]
    have hlen2' : w2'.length = fftSize - 1 := by simp at h2; omega
    have hrec := pushAll_fill w2' (w1.set 0 s) (w1 ++ List.replicate fftSize 0) 1 true
      (by simpa using h1) (by omega)
    rw [h1] at hfold hstep ⊢
    rw [hfold, hstep, hrec]
    have hw1 : w1 ≠ [] := by
      intro hnil
      rw [hnil, List.length_nil] at h1
      exact absurd h1.symm (Nat.ne_of_gt fftSize_pos)
    obtain ⟨a, w1', rfl⟩ := List.exists_cons_of_ne_nil hw1
    have htake : ((a :: w1').set 0 s).take 1 = [s] := by simp
    have hdrop : ((a :: w1').set 0 s).drop (1 + w2'.length) = [] :=
      List.drop_eq_nil_of_le (by simp at h1 ⊢; omega)
    rw [htake, hdrop]
    simp [IngestState.mk.injEq]
    omega

/-- Claim C2 (amended): starting from the initial state (write cursor 0, no
ready frame), pushing exactly `2 * fftSize` samples with no render-context
drain leaves exactly one ready `AnalysisFrame` (`nextFFTBlockReady = true`),
and that frame's contents are the FIRST window of `fftSize` samples
(zero-padded to `2 * fftSize`); the second window sits in the capture fifo,
to be dropped only later if the frame is still unconsumed. -/
theorem claim_C2_amended (w1 w2 fifo0 fd0 : List ℚ)
    (h1 : w1.length = fftSize) (h2 : w2.length = fftSize) (hf : fifo0.length = fftSize) :
    pushAll ⟨fifo0, fd0, 0, false⟩ (w1 ++ w2) =
      ⟨w2, w1 ++ List.replicate fftSize 0, fftSize, true⟩ :=
  pushAll_two_windows w1 w2 fifo0 fd0 h1 h2 hf

/-- Witness for C2 (amended) at the concrete windows `replicate fftSize 0`
and `replicate fftSize 1`. -/
theorem claim_C2_witness :
    (List.replicate fftSize (0:ℚ)).length = fftSize ∧
    (List.replicate fftSize (1:ℚ)).length = fftSize ∧
    pushAll ⟨List.replicate fftSize 0, List.replicate (2 * fftSize) 0, 0, false⟩
        (List.replicate fftSize (0:ℚ) ++ List.replicate fftSize (1:ℚ)) =
      ⟨List.replicate fftSize 1, List.replicate fftSize 0 ++ List.replicate fftSize 0,
        fftSize, true⟩ :=
  ⟨by simp, by simp,
    claim_C2_amended (List.replicate fftSize 0) (List.replicate fftSize 1)
      (List.replicate fftSize 0) (List.replicate (2 * fftSize) 0)
      (by simp) (by simp) (by simp)⟩

/-- Counterexample to claim C2 as stated: pushing two windows
(`w1 = fftSize` zeros, then `w2 = 1` followed by zeros) from the initial
state does NOT leave the second window in the `AnalysisFrame` buffer — the
handed-off frame holds the first window. -/
theorem claim_C2_counterexample :
    ¬ ((pushAll ⟨List.replicate fftSize 0, List.replicate (2 * fftSize) 0, 0, false⟩
          (List.replicate fftSize (0:ℚ) ++ ((1:ℚ) :: List.replicate (fftSize - 1) 0))).fftData =
        ((1:ℚ) :: List.replicate (fftSize - 1) 0) ++ List.replicate fftSize 0) := by
  have hlen2 : ((1:ℚ) :: List.replicate (fftSize - 1) 0).length = fftSize := by
    simp [Nat.sub_add_cancel (Nat.one_le_iff_ne_zero.mpr (Nat.ne_of_gt fftSize_pos))]
  rw [pushAll_two_windows _ _ _ _ (by simp) hlen2 (by simp)]
  intro h
  have hh := congrArg List.head? h
  rw [List.head?_append, List.head?_append, List.head?_replicate,
    if_neg (Nat.ne_of_gt fftSize_pos)] at hh
  simp at hh

theorem pushNext_ready (st : IngestState) (w : ℚ) (h : st.nextFFTBlockReady = true) :
    (pushNextSampleIntoFifo st w).fftData = st.fftData ∧
      (pushNextSampleIntoFifo st w).nextFFTBlockReady = true := by
  by_cases hi : st.fifoIndex = fftSize <;> simp [pushNextSampleIntoFifo, h, hi]

/-- Claim C9: while `nextFFTBlockReady` is true, pushing any further samples
leaves the `AnalysisFrame` snapshot buffer (`fftData`) unchanged, and the
flag stays set (only the render context clears it). -/
theorem claim_C9 : ∀ (ws : List ℚ) (st : IngestState), st.nextFFTBlockReady = true →
    (pushAll st ws).fftData = st.fftData ∧ (pushAll st ws).nextFFTBlockReady = true
  | [], st, h => by simp [pushAll, h]
  | w :: ws, st, h => by
    have hstep := pushNext_ready st w h
    have hrec := claim_C9 ws (pushNextSampleIntoFifo st w) hstep.2
    have hfold : pushAll st (w :: ws) = pushAll (pushNextSampleIntoFifo st w) ws := by
      simp [pushAll]
    rw [hfold]
    exact ⟨hrec.1.trans hstep.1, hrec.2⟩

/-- Witness for C9 at a concrete ready state and two pushed samples. -/
theorem claim_C9_witness :
    (⟨[], [3, 4], 0, true⟩ : IngestState).nextFFTBlockReady = true ∧
      (pushAll ⟨[], [3, 4], 0, true⟩ [5, 7]).fftData = [3, 4] ∧
      (pushAll ⟨[], [3, 4], 0, true⟩ [5, 7]).nextFFTBlockReady = true :=
  ⟨rfl, claim_C9 [5, 7] ⟨[], [3, 4], 0, true⟩ rfl⟩

/-! ## freqToBin: clamping behaviour (C3, C7) and build idempotence (C6) -/

/-- Counterexample to claim C3 as stated: at the valid configuration
`sampleRate = 8000` and frequency `22000`, `freqToBin` returns
`fftSize - 1 = 2047`, which exceeds the claimed clamp bound
`fftSize/2 - 1 = 1023`. -/
theorem claim_C3_counterexample :
    freqToBin 8000 22000 = 2047 ∧ ¬ (freqToBin 8000 22000 ≤ (fftSize : ℤ) / 2 - 1) := by
  have h : freqToBin 8000 22000 = 2047 := by
    norm_num [freqToBin, round_eq, fftSize, fftOrder]
  refine ⟨h, ?_⟩
  rw [h]
  norm_num [fftSize, fftOrder]

/-- Claim C3 (amended): for every frequency and nonzero sample rate, the
representative bin equals `round(freq * fftSize / sampleRate)` whenever that
value is below `fftSize / 2`; otherwise it is pinned to `fftSize - 1` (the
last bin of the full FFT, not `fftSize/2 - 1`). -/
theorem claim_C3_amended (sr f : ℚ) (hsr : 0 < sr) :
    (freqToBin sr f = round (f * (fftSize : ℚ) / sr) ∧
      round (f * (fftSize : ℚ) / sr) ≤ (fftSize : ℤ) / 2 - 1) ∨
    (freqToBin sr f = (fftSize : ℤ) - 1 ∧
      (fftSize : ℤ) / 2 ≤ round (f * (fftSize : ℚ) / sr)) := by
  by_cases h : round (f * (fftSize : ℚ) / sr) < (fftSize : ℤ) / 2
  · left
    refine ⟨by simp [freqToBin, hsr.ne', h], by omega⟩
  · right
    refine ⟨by simp [freqToBin, hsr.ne', h], by omega⟩

/-- Witness for C3 (amended) at `sampleRate = 48000`, `freq = 440`. -/
theorem claim_C3_witness :
    (0:ℚ) < 48000 ∧
    ((freqToBin 48000 440 = round ((440:ℚ) * (fftSize : ℚ) / 48000) ∧
        round ((440:ℚ) * (fftSize : ℚ) / 48000) ≤ (fftSize : ℤ) / 2 - 1) ∨
      (freqToBin 48000 440 = (fftSize : ℤ) - 1 ∧
        (fftSize : ℤ) / 2 ≤ round ((440:ℚ) * (fftSize : ℚ) / 48000))) :=
  ⟨by norm_num, claim_C3_amended 48000 440 (by norm_num)⟩

/-- Claim C7 divergence: a non-positive sample rate is NOT rejected — the
mapper computes bins from it anyway, and the resulting bin is garbage (here
`-1`, an out-of-range index), which then lands in the produced `BarTable`
unflagged. -/
theorem claim_C7_divergence :
    freqToBin (-48000) 20 = -1 ∧
    buildBars ([(20:ℚ)].map (freqToBin (-48000))) = [⟨0, -1, 0, 0⟩] ∧
    ¬ (0 ≤ (-1 : ℤ)) := by
  refine ⟨?_, ?_, by norm_num⟩
  · norm_num [freqToBin, round_eq, fftSize, fftOrder]
  · norm_num [freqToBin, round_eq, fftSize, fftOrder, buildBars, buildBarsAux, extendPrevBin]

/-- Claim C6 divergence: a second `buildTemperedScale` call with the same
configuration does not reproduce the same state — the member vectors are
appended to without being cleared, so the scale doubles and further bars are
appended (modelled frequency list `[100, 200]` at 48 kHz). -/
theorem claim_C6_divergence :
    buildTemperedScaleStep [100, 200] 48000 (buildTemperedScaleStep [100, 200] 48000 ⟨[], []⟩) ≠
      buildTemperedScaleStep [100, 200] 48000 ⟨[], []⟩ := by
  intro h
  have hlen := congrArg (fun st => st.temperedScale.length) h
  simp [buildTemperedScaleStep] at hlen


/-! ## Lemmas about the bar-construction walk -/

theorem enumFrom_map_patchFun_dataIdx : ∀ (l : List Bar) (k n : ℕ),
    ((List.enumFrom k l).map (patchFun n)).map (fun b => b.dataIdx) =
      l.map (fun b => b.dataIdx)
  | [], _, _ => rfl
  | a :: l, k, n => by
    simp only [List.enumFrom, List.map_cons]
    rw [enumFrom_map_patchFun_dataIdx l (k + 1) n]
    rfl

theorem enumFrom_map_patchFun_posX : ∀ (l : List Bar) (k n : ℕ),
    ((List.enumFrom k l).map (patchFun n)).map (fun b => b.posX) =
      l.map (fun b => b.posX)
  | [], _, _ => rfl
  | a :: l, k, n => by
    simp only [List.enumFrom, List.map_cons]
    rw [enumFrom_map_patchFun_posX l (k + 1) n]
    rfl

theorem enumFrom_map_patchFun_endIdx : ∀ (l : List Bar) (k n : ℕ),
    ((List.enumFrom k l).map (patchFun n)).map (fun b => b.endIdx) =
      l.map (fun b => b.endIdx)
  | [], _, _ => rfl
  | a :: l, k, n => by
    simp only [List.enumFrom, List.map_cons]
    rw [enumFrom_map_patchFun_endIdx l (k + 1) n]
    rfl

theorem enumFrom_map_patchFun_factor : ∀ (l : List Bar) (k n : ℕ),
    ((List.enumFrom k l).map (patchFun n)).map (fun b => b.factor) =
      (List.range' k l.length).map (fun (i : ℕ) => ((i : ℚ) + 1) / (n : ℚ))
  | [], _, _ => rfl
  | a :: l, k, n => by
    simp only [List.enumFrom, List.map_cons, List.length_cons, List.range'_succ]
    rw [enumFrom_map_patchFun_factor l (k + 1) n]
    rfl

theorem patchRun_length (bars : List Bar) (n : ℕ) :
    (patchRun bars n).length = bars.length := by
  simp [patchRun, List.enum_length]

theorem patchRun_map_dataIdx (bars : List Bar) (n : ℕ) :
    (patchRun bars n).map (fun b => b.dataIdx) = bars.map (fun b => b.dataIdx) := by
  simp only [patchRun, List.map_append, List.enum]
  rw [enumFrom_map_patchFun_dataIdx, List.map_take, List.map_drop, List.take_append_drop]

theorem patchRun_map_posX (bars : List Bar) (n : ℕ) :
    (patchRun bars n).map (fun b => b.posX) = bars.map (fun b => b.posX) := by
  simp only [patchRun, List.map_append, List.enum]
  rw [enumFrom_map_patchFun_posX, List.map_take, List.map_drop, List.take_append_drop]

theorem patchRun_map_endIdx (bars : List Bar) (n : ℕ) :
    (patchRun bars n).map (fun b => b.endIdx) = bars.map (fun b => b.endIdx) := by
  simp only [patchRun, List.map_append, List.enum]
  rw [enumFrom_map_patchFun_endIdx, List.map_take, List.map_drop, List.take_append_drop]

theorem patchRun_map_factor (bars : List Bar) (n : ℕ) (h : n ≤ bars.length) :
    (patchRun bars n).map (fun b => b.factor) = patchF (bars.map (fun b => b.factor)) n := by
  simp only [patchRun, List.map_append, List.enum, patchF, ramp]
  rw [enumFrom_map_patchFun_factor, List.map_take, List.length_map, List.length_drop]
  have hn : bars.length - (bars.length - n) = n := by omega
  rw [hn, ← List.range_eq_range']

theorem buildBarsAux_map_dataIdx : ∀ (bins : List ℤ) (pb pi : ℤ) (n : ℕ)
    (acc : List Bar) (i : ℕ),
    (buildBarsAux pb pi n acc i bins).map (fun b => b.dataIdx) =
      acc.map (fun b => b.dataIdx) ++ idxsFrom pb bins
  | [], _, _, _, acc, _ => by simp [buildBarsAux, idxsFrom]
  | bin :: rest, pb, pi, n, acc, i => by
    simp only [buildBarsAux, idxsFrom]
    rw [buildBarsAux_map_dataIdx rest]
    by_cases hidx : (if pb > 0 ∧ pb + 1 ≤ bin then pb + 1 else bin) = pi
    · simp [hidx, List.append_assoc]
    · by_cases hn : n > 1
      · simp [hidx, hn, patchRun_map_dataIdx, List.append_assoc]
      · simp [hidx, hn, List.append_assoc]

theorem buildBars_map_dataIdx (bins : List ℤ) :
    (buildBars bins).map (fun b => b.dataIdx) = idxsFrom 0 bins := by
  rw [buildBars, buildBarsAux_map_dataIdx]
  simp

theorem buildBarsAux_map_posX : ∀ (bins : List ℤ) (pb pi : ℤ) (n : ℕ)
    (acc : List Bar) (i : ℕ),
    (buildBarsAux pb pi n acc i bins).map (fun b => b.posX) =
      acc.map (fun b => b.posX) ++ (List.range' i bins.length).map (fun m => (m : ℤ))
  | [], _, _, _, acc, _ => by simp [buildBarsAux]
  | bin :: rest, pb, pi, n, acc, i => by
    simp only [buildBarsAux, List.length_cons]
    rw [buildBarsAux_map_posX rest, List.range'_succ]
    by_cases hidx : (if pb > 0 ∧ pb + 1 ≤ bin then pb + 1 else bin) = pi
    · simp [hidx, List.append_assoc]
    · by_cases hn : n > 1
      · simp [hidx, hn, patchRun_map_posX, List.append_assoc]
      · simp [hidx, hn, List.append_assoc]

theorem buildBars_map_posX (bins : List ℤ) :
    (buildBars bins).map (fun b => b.posX) =
      (List.range bins.length).map (fun m => (m : ℤ)) := by
  rw [buildBars, buildBarsAux_map_posX, List.range_eq_range']
  simp

theorem idxsFrom_eq_zipWith : ∀ (bins : List ℤ) (pb : ℤ),
    idxsFrom pb bins =
      List.zipWith (fun bin p => if p > 0 ∧ p + 1 ≤ bin then p + 1 else bin) bins (pbSeq pb bins)
  | [], _ => rfl
  | bin :: rest, pb => by
    simp only [idxsFrom, pbSeq, List.zipWith_cons_cons]
    rw [idxsFrom_eq_zipWith rest]

/-- Claim C4 (amended): during the scale-mapping walk, a bar whose entry
`prevBin` is positive and whose own computed bin is at least `prevBin + 1`
is assigned starting bin `prevBin + 1`; otherwise (own bin at or below
`prevBin`, or `prevBin = 0`) the bar starts at its own computed bin.  (The
claim as stated has the comparison reversed.) -/
theorem claim_C4_amended (bins : List ℤ) (i : ℕ) (b p : ℤ)
    (hb : bins[i]? = some b) (hp : (pbSeq 0 bins)[i]? = some p) :
    ((buildBars bins).map (fun bar => bar.dataIdx))[i]? =
      some (if p > 0 ∧ p + 1 ≤ b then p + 1 else b) := by
  rw [buildBars_map_dataIdx, idxsFrom_eq_zipWith, List.getElem?_zipWith, hb, hp]

/-- Witness for C4 (amended) at the bin list `[5, 10]`, position 1. -/
theorem claim_C4_witness :
    ([5, 10] : List ℤ)[1]? = some 10 ∧ (pbSeq 0 [5, 10])[1]? = some 8 ∧
    ((buildBars [5, 10]).map (fun bar => bar.dataIdx))[1]? =
      some (if (8:ℤ) > 0 ∧ 8 + 1 ≤ 10 then 8 + 1 else 10) :=
  ⟨by norm_num, by norm_num [pbSeq, extendPrevBin, round_eq],
    claim_C4_amended [5, 10] 1 10 8 (by norm_num)
      (by norm_num [pbSeq, extendPrevBin, round_eq])⟩

/-- Counterexample to claim C4 as stated: for the frequencies 120 Hz and
234 Hz at 48 kHz (bins 5 and 10), bar 1 enters the walk with `prevBin = 8`
and its own computed bin 10 exceeds `prevBin + 1 = 9`, so by the claim it
should start at its own bin 10 — but the walk assigns 9. -/
theorem claim_C4_counterexample :
    [(120:ℚ), 234].map (freqToBin 48000) = [5, 10] ∧
    (pbSeq 0 ([(120:ℚ), 234].map (freqToBin 48000)))[1]? = some 8 ∧
    ([(120:ℚ), 234].map (freqToBin 48000))[1]? = some 10 ∧
    ¬ ((10:ℤ) ≤ 8 + 1) ∧
    ((buildBars ([(120:ℚ), 234].map (freqToBin 48000))).map (fun b => b.dataIdx))[1]? = some 9 ∧
    (9 : ℤ) ≠ 10 := by
  have hbins : [(120:ℚ), 234].map (freqToBin 48000) = [5, 10] := by
    norm_num [freqToBin, round_eq, fftSize, fftOrder]
  refine ⟨hbins, ?_, ?_, by norm_num, ?_, by norm_num⟩
  · rw [hbins]
    norm_num [pbSeq, extendPrevBin, round_eq]
  · rw [hbins]
    norm_num
  · rw [hbins]
    norm_num [buildBars, buildBarsAux, extendPrevBin, round_eq]

/-! ## Monotonicity of the walk (C8) -/

theorem round_half_nonneg (d : ℤ) (hd : 0 ≤ d) : 0 ≤ round ((d : ℚ) / 2) := by
  rw [round_eq]
  have hq : (0:ℚ) ≤ (d:ℚ) := by exact_mod_cast hd
  exact Int.le_floor.mpr (by push_cast; linarith)

theorem round_half_le (d : ℤ) (hd : 1 ≤ d) : round ((d : ℚ) / 2) ≤ d := by
  rw [round_eq]
  have hq : (1:ℚ) ≤ (d:ℚ) := by exact_mod_cast hd
  calc ⌊(d:ℚ)/2 + 1/2⌋ ≤ ⌊(d:ℚ)⌋ := Int.floor_le_floor (by linarith)
    _ = d := Int.floor_intCast d

theorem extendPrevBin_ge (bin : ℤ) (next? : Option ℤ)
    (hnext : ∀ nb ∈ next?, bin ≤ nb) : bin ≤ extendPrevBin bin next? := by
  cases next? with
  | none => simp [extendPrevBin]
  | some nb =>
    simp only [extendPrevBin]
    by_cases h : nb - bin > 1
    · have h2 : 0 ≤ round (((nb - bin : ℤ) : ℚ) / 2) := round_half_nonneg _ (by omega)
      simp only [if_pos h]
      omega
    · simp [if_neg h]

theorem extendPrevBin_le (bin M : ℤ) (next? : Option ℤ) (hb : bin ≤ M)
    (hnext : ∀ nb ∈ next?, nb ≤ M) : extendPrevBin bin next? ≤ M := by
  cases next? with
  | none => simpa [extendPrevBin] using hb
  | some nb =>
    have hnb : nb ≤ M := hnext nb rfl
    simp only [extendPrevBin]
    by_cases h : nb - bin > 1
    · have h2 : round (((nb - bin : ℤ) : ℚ) / 2) ≤ nb - bin := round_half_le _ (by omega)
      simp only [if_pos h]
      omega
    · simpa [if_neg h] using hb

theorem extendPrevBin_nonneg (bin : ℤ) (next? : Option ℤ) (hb : 0 ≤ bin) :
    0 ≤ extendPrevBin bin next? := by
  cases next? with
  | none => simpa [extendPrevBin] using hb
  | some nb =>
    simp only [extendPrevBin]
    by_cases h : nb - bin > 1
    · have h2 : 0 ≤ round (((nb - bin : ℤ) : ℚ) / 2) := round_half_nonneg _ (by omega)
      simp only [if_pos h]
      omega
    · simpa [if_neg h] using hb

theorem idx_le_bin (pb bin : ℤ) : (if pb > 0 ∧ pb + 1 ≤ bin then pb + 1 else bin) ≤ bin := by
  split_ifs with h
  · exact h.2
  · exact le_refl bin

theorem idxsFrom_chain : ∀ (bins : List ℤ) (pb : ℤ), List.Chain' (· ≤ ·) bins →
    List.Chain' (· ≤ ·) (idxsFrom pb bins)
  | [], _, _ => List.chain'_nil
  | [bin], pb, _ => by simp [idxsFrom]
  | bin :: bin2 :: rest, pb, hchain => by
    have hbb : bin ≤ bin2 := (List.chain'_cons.mp hchain).1
    have hc : List.Chain' (· ≤ ·) (bin2 :: rest) := (List.chain'_cons.mp hchain).2
    have hIH := idxsFrom_chain (bin2 :: rest) (extendPrevBin bin (some bin2)) hc
    have hshape : idxsFrom pb (bin :: bin2 :: rest) =
        (if pb > 0 ∧ pb + 1 ≤ bin then pb + 1 else bin) ::
          idxsFrom (extendPrevBin bin (some bin2)) (bin2 :: rest) := rfl
    rw [hshape]
    apply List.chain'_cons'.mpr
    refine ⟨?_, hIH⟩
    intro y hy
    have hshape2 : idxsFrom (extendPrevBin bin (some bin2)) (bin2 :: rest) =
        (if extendPrevBin bin (some bin2) > 0 ∧ extendPrevBin bin (some bin2) + 1 ≤ bin2 then
            extendPrevBin bin (some bin2) + 1 else bin2) ::
          idxsFrom (extendPrevBin bin2 rest.head?) rest := rfl
    rw [hshape2] at hy
    simp only [List.head?_cons, Option.mem_def, Option.some.injEq] at hy
    subst hy
    have hge : bin ≤ extendPrevBin bin (some bin2) :=
      extendPrevBin_ge bin (some bin2) (fun nb hnb => by
        simp only [Option.mem_def, Option.some.injEq] at hnb
        omega)
    have h0 : (if pb > 0 ∧ pb + 1 ≤ bin then pb + 1 else bin) ≤ bin := idx_le_bin pb bin
    by_cases h1 : extendPrevBin bin (some bin2) > 0 ∧ extendPrevBin bin (some bin2) + 1 ≤ bin2
    · simp only [if_pos h1]
      omega
    · simp only [if_neg h1]
      omega

theorem freqToBin_mono (sr : ℚ) (hsr : 0 < sr) (f1 f2 : ℚ) (h : f1 ≤ f2) :
    freqToBin sr f1 ≤ freqToBin sr f2 := by
  have hfs : (fftSize : ℤ) = 2048 := by norm_num [fftSize, fftOrder]
  have hr : round (f1 * (fftSize:ℚ) / sr) ≤ round (f2 * (fftSize:ℚ) / sr) := by
    rw [round_eq, round_eq]
    apply Int.floor_le_floor
    have hN : (0:ℚ) ≤ (fftSize:ℚ) := by positivity
    have hdd : f1 * (fftSize:ℚ) / sr ≤ f2 * (fftSize:ℚ) / sr := by gcongr
    linarith
  by_cases h1 : round (f1 * (fftSize:ℚ) / sr) < (fftSize:ℤ)/2 <;>
    by_cases h2 : round (f2 * (fftSize:ℚ) / sr) < (fftSize:ℤ)/2 <;>
    simp only [freqToBin, hsr.ne', if_neg, if_false, if_pos, h1, h2, if_true] <;>
    simp only [hfs] at h1 h2 ⊢ <;>
    omega

/-- Claim C8: for every positive sample rate and every non-decreasing
frequency list (every tempered scale is such a list), the produced bar table
has positions exactly `0, 1, …, len-1` in order (no gaps, no duplicates),
and the primary bin indices are non-decreasing in position order. -/
theorem claim_C8 (sr : ℚ) (freqs : List ℚ) (hsr : 0 < sr)
    (hchain : List.Chain' (· ≤ ·) freqs) :
    (buildBars (freqs.map (freqToBin sr))).map (fun b => b.posX) =
      (List.range freqs.length).map (fun m => (m : ℤ)) ∧
    List.Chain' (· ≤ ·) ((buildBars (freqs.map (freqToBin sr))).map (fun b => b.dataIdx)) := by
  constructor
  · rw [buildBars_map_posX]
    simp
  · rw [buildBars_map_dataIdx]
    apply idxsFrom_chain
    exact List.chain'_map_of_chain' (freqToBin sr)
      (fun a b hab => freqToBin_mono sr hsr a b hab) hchain

/-- Witness for C8 at `sampleRate = 48000`, frequencies `[20, 10000]`. -/
theorem claim_C8_witness :
    (0:ℚ) < 48000 ∧ List.Chain' (· ≤ ·) [(20:ℚ), 10000] ∧
    ((buildBars ([(20:ℚ), 10000].map (freqToBin 48000))).map (fun b => b.posX) =
        (List.range ([(20:ℚ), 10000].length)).map (fun m => (m : ℤ)) ∧
      List.Chain' (· ≤ ·)
        ((buildBars ([(20:ℚ), 10000].map (freqToBin 48000))).map (fun b => b.dataIdx))) :=
  ⟨by norm_num, by norm_num [List.chain'_cons],
    claim_C8 48000 [20, 10000] (by norm_num) (by norm_num [List.chain'_cons])⟩

/-! ## Bin-range safety of the walk (C10) -/

theorem freqToBin_bounds (sr f : ℚ) (hsr : 0 < sr) (hf : 0 ≤ f) :
    0 ≤ freqToBin sr f ∧ freqToBin sr f ≤ (fftSize : ℤ) - 1 := by
  have hfs : (fftSize : ℤ) = 2048 := by norm_num [fftSize, fftOrder]
  have h0 : 0 ≤ round (f * (fftSize:ℚ) / sr) := by
    rw [round_eq]
    have harg : (0:ℚ) ≤ f * (fftSize:ℚ) / sr := by positivity
    exact Int.le_floor.mpr (by push_cast; linarith)
  by_cases h1 : round (f * (fftSize:ℚ) / sr) < (fftSize:ℤ)/2 <;>
    simp only [freqToBin, hsr.ne', if_neg, if_pos, h1, if_true, if_false] <;>
    simp only [hfs] at h1 h0 ⊢ <;>
    omega

theorem patchRun_mem (bars : List Bar) (n : ℕ) (bar : Bar) (h : bar ∈ patchRun bars n) :
    ∃ b0 ∈ bars, bar.dataIdx = b0.dataIdx ∧ bar.endIdx = b0.endIdx := by
  simp only [patchRun, List.mem_append] at h
  cases h with
  | inl h => exact ⟨bar, (List.take_sublist _ _).mem h, rfl, rfl⟩
  | inr h =>
    simp only [List.mem_map] at h
    obtain ⟨⟨pi, pb⟩, hp, rfl⟩ := h
    have hmem : pb ∈ bars.drop (bars.length - n) := by
      rw [List.enum_eq_zip_range] at hp
      exact (List.of_mem_zip hp).2
    exact ⟨pb, (List.drop_sublist _ _).mem hmem, rfl, rfl⟩

theorem buildBarsAux_bounds : ∀ (bins : List ℤ) (pb pi : ℤ) (n : ℕ) (acc : List Bar) (i : ℕ),
    (∀ b ∈ bins, 0 ≤ b ∧ b ≤ (fftSize:ℤ) - 1) →
    0 ≤ pb → pb ≤ (fftSize:ℤ) - 1 →
    (∀ bar ∈ acc, (0 ≤ bar.dataIdx ∧ bar.dataIdx ≤ (fftSize:ℤ) - 1) ∧
      (0 ≤ bar.endIdx ∧ bar.endIdx ≤ (fftSize:ℤ) - 1)) →
    ∀ bar ∈ buildBarsAux pb pi n acc i bins,
      (0 ≤ bar.dataIdx ∧ bar.dataIdx ≤ (fftSize:ℤ) - 1) ∧
      (0 ≤ bar.endIdx ∧ bar.endIdx ≤ (fftSize:ℤ) - 1)
  | [], pb, pi, n, acc, i, hbins, hpb0, hpb1, hacc => by
    simpa [buildBarsAux] using hacc
  | bin :: rest, pb, pi, n, acc, i, hbins, hpb0, hpb1, hacc => by
    have hbin := hbins bin (List.mem_cons_self _ _)
    have hrest : ∀ b ∈ rest, 0 ≤ b ∧ b ≤ (fftSize:ℤ) - 1 :=
      fun b hb => hbins b (List.mem_cons_of_mem _ hb)
    have hpb0' : 0 ≤ extendPrevBin bin rest.head? := extendPrevBin_nonneg bin _ hbin.1
    have hpb1' : extendPrevBin bin rest.head? ≤ (fftSize:ℤ) - 1 :=
      extendPrevBin_le bin _ rest.head? hbin.2
        (fun nb hnb => (hrest nb (List.mem_of_mem_head? hnb)).2)
    intro bar hbar
    simp only [buildBarsAux] at hbar
    refine buildBarsAux_bounds rest _ _ _ _ _ hrest hpb0' hpb1' ?_ bar hbar
    intro b hb
    rcases List.mem_append.mp hb with hmem | hmem
    · split_ifs at hmem
      all_goals first
        | exact hacc b hmem
        | · obtain ⟨b0, hb0, hd, he⟩ := patchRun_mem acc n b hmem
            rw [hd, he]
            exact hacc b0 hb0
    · rw [List.mem_singleton] at hmem
      subst hmem
      dsimp only
      have hfs : (fftSize : ℤ) = 2048 := by norm_num [fftSize, fftOrder]
      constructor
      · split_ifs with h1
        · exact ⟨by omega, by omega⟩
        · exact hbin
      · split_ifs
        all_goals first
          | exact ⟨hpb0', hpb1'⟩
          | omega

/-- Counterexample to claim C10 as stated: with the finite (but negative)
sample rate −44100 Hz, the single 20 Hz band gets primary bin −1, outside
`[0, fftSize - 1]` — so the claim fails for some finite configurations. -/
theorem claim_C10_counterexample :
    buildBars ([(20:ℚ)].map (freqToBin (-44100))) =
      [{ posX := 0, dataIdx := -1, endIdx := 0, factor := 0 }] ∧ ¬ ((0:ℤ) ≤ -1) := by
  constructor
  · norm_num [freqToBin, round_eq, fftSize, fftOrder, buildBars, buildBarsAux, extendPrevBin]
  · norm_num

/-- Claim C10 (amended): for every configuration with POSITIVE sample rate
(and the non-negative frequencies the scale generator produces), every bar's
primary and end bin indices lie in `[0, fftSize - 1]`; hence every spectrum
read that `drawFrame` performs — at `dataIdx - 1` (only when `dataIdx > 0`),
at `dataIdx`, and at `dataIdx..endIdx` — is within the bounds of the
`2 * fftSize`-element buffer. -/
theorem claim_C10_amended (sr : ℚ) (freqs : List ℚ) (hsr : 0 < sr)
    (hfreqs : ∀ f ∈ freqs, 0 ≤ f) :
    ∀ bar ∈ buildBars (freqs.map (freqToBin sr)),
      (0 ≤ bar.dataIdx ∧ bar.dataIdx ≤ (fftSize : ℤ) - 1) ∧
      (0 ≤ bar.endIdx ∧ bar.endIdx ≤ (fftSize : ℤ) - 1) ∧
      bar.dataIdx < 2 * (fftSize : ℤ) ∧ bar.endIdx < 2 * (fftSize : ℤ) := by
  intro bar hbar
  have hbins : ∀ b ∈ freqs.map (freqToBin sr), 0 ≤ b ∧ b ≤ (fftSize:ℤ) - 1 := by
    intro b hb
    obtain ⟨f, hf, rfl⟩ := List.mem_map.mp hb
    exact freqToBin_bounds sr f hsr (hfreqs f hf)
  have hfs0 : (fftSize : ℤ) = 2048 := by norm_num [fftSize, fftOrder]
  have h := buildBarsAux_bounds (freqs.map (freqToBin sr)) 0 0 0 [] 0 hbins
    (le_refl 0) (by omega) (by intro b hb; simp at hb) bar hbar
  have hfs : (fftSize : ℤ) = 2048 := by norm_num [fftSize, fftOrder]
  exact ⟨h.1, h.2, by omega, by omega⟩

/-- Witness for C10 (amended) at `sampleRate = 48000`,
frequencies `[20, 10000]`, first produced bar. -/
theorem claim_C10_witness :
    (0:ℚ) < 48000 ∧ (∀ f ∈ [(20:ℚ), 10000], 0 ≤ f) ∧
    ({ posX := 0, dataIdx := 1, endIdx := 214, factor := 0 } : Bar) ∈
      buildBars ([(20:ℚ), 10000].map (freqToBin 48000)) ∧
    ((0 ≤ (1:ℤ) ∧ (1:ℤ) ≤ (fftSize : ℤ) - 1) ∧
      (0 ≤ (214:ℤ) ∧ (214:ℤ) ≤ (fftSize : ℤ) - 1) ∧
      (1:ℤ) < 2 * (fftSize : ℤ) ∧ (214:ℤ) < 2 * (fftSize : ℤ)) := by
  have hmem : ({ posX := 0, dataIdx := 1, endIdx := 214, factor := 0 } : Bar) ∈
      buildBars ([(20:ℚ), 10000].map (freqToBin 48000)) := by
    norm_num [freqToBin, round_eq, fftSize, fftOrder, buildBars, buildBarsAux, extendPrevBin]
  refine ⟨by norm_num, by norm_num, hmem, ?_⟩
  exact claim_C10_amended 48000 [20, 10000] (by norm_num) (by norm_num) _ hmem

/-! ## The factor column: run structure (C5) -/

theorem ramp_length (k : ℕ) : (ramp k).length = k := by
  rw [ramp, List.length_map, List.length_range]

theorem patchF_length (A : List ℚ) (n : ℕ) (h : n ≤ A.length) :
    (patchF A n).length = A.length := by
  rw [patchF, List.length_append, List.length_take, ramp_length]
  omega

theorem patchF_append (A B : List ℚ) (n : ℕ) (h : n ≤ B.length) :
    patchF (A ++ B) n = A ++ patchF B n := by
  simp only [patchF, List.length_append]
  rw [show A.length + B.length - n = A.length + (B.length - n) by omega]
  rw [List.take_append_eq_append_take, List.take_of_length_le (by omega),
    Nat.add_sub_cancel_left, List.append_assoc]

theorem factorsOfAux_length : ∀ (s : List ℤ) (pi : ℤ) (n : ℕ) (A : List ℚ),
    n ≤ A.length → (factorsOfAux pi n A s).length = A.length + s.length
  | [], _, _, A, _ => by simp [factorsOfAux]
  | idx :: rest, pi, n, A, h => by
    simp only [factorsOfAux]
    by_cases hidx : idx = pi
    · rw [if_pos hidx, factorsOfAux_length rest pi (n + 1) (A ++ [0]) (by simp; omega)]
      simp [List.length_cons]
      omega
    · rw [if_neg hidx,
        factorsOfAux_length rest idx 1 ((if n > 1 then patchF A n else A) ++ [0]) (by simp)]
      by_cases hn : n > 1 <;> simp [hn, patchF_length A n h, List.length_cons] <;> omega

theorem factorsOfAux_prefix : ∀ (s : List ℤ) (pi : ℤ) (n : ℕ) (A B : List ℚ),
    n ≤ B.length → factorsOfAux pi n (A ++ B) s = A ++ factorsOfAux pi n B s
  | [], _, _, _, _, _ => by simp [factorsOfAux]
  | idx :: rest, pi, n, A, B, h => by
    simp only [factorsOfAux]
    by_cases hidx : idx = pi
    · simp only [if_pos hidx]
      rw [List.append_assoc]
      exact factorsOfAux_prefix rest pi (n + 1) A (B ++ [0]) (by simp; omega)
    · simp only [if_neg hidx]
      have hpf : (if n > 1 then patchF (A ++ B) n else A ++ B) ++ [0] =
          A ++ ((if n > 1 then patchF B n else B) ++ [0]) := by
        by_cases hn : n > 1 <;> simp [hn, patchF_append A B n h, List.append_assoc]
      rw [hpf]
      exact factorsOfAux_prefix rest idx 1 A ((if n > 1 then patchF B n else B) ++ [0]) (by simp)

theorem factorsOfAux_absorb : ∀ (k : ℕ) (pi : ℤ) (m : ℕ) (A : List ℚ) (rest : List ℤ),
    factorsOfAux pi m A (List.replicate k pi ++ rest) =
      factorsOfAux pi (m + k) (A ++ List.replicate k 0) rest
  | 0, pi, m, A, rest => by simp [factorsOfAux]
  | k + 1, pi, m, A, rest => by
    have h1 : m + (k + 1) = (m + 1) + k := by omega
    have h2 : A ++ List.replicate (k + 1) (0:ℚ) = (A ++ [0]) ++ List.replicate k 0 := by
      simp [List.replicate_succ, List.append_assoc]
    rw [h1, h2, List.replicate_succ, List.cons_append]
    simp only [factorsOfAux, if_pos rfl]
    exact factorsOfAux_absorb k pi (m + 1) (A ++ [0]) rest

theorem factorsOf_start (d : ℤ) (rest : List ℤ) :
    factorsOf (d :: rest) = factorsOfAux d 1 [0] rest := by
  rw [factorsOf]
  simp only [factorsOfAux]
  by_cases hd : d = 0
  · subst hd
    simp
  · rw [if_neg hd]
    simp

theorem factorsOf_peel (j : ℕ) (d : ℤ) (rest : List ℤ) (hj : 1 ≤ j)
    (hne : rest.head? ≠ some d) :
    factorsOf (List.replicate j d ++ rest) =
      (if rest = [] then List.replicate j 0 else
        if j = 1 then ([0] : List ℚ) else ramp j) ++ factorsOf rest := by
  obtain ⟨j', rfl⟩ : ∃ j', j = j' + 1 := ⟨j - 1, by omega⟩
  rw [List.replicate_succ, List.cons_append, factorsOf_start,
    factorsOfAux_absorb j' d 1 [0] rest]
  have h01 : ([0] : List ℚ) ++ List.replicate j' 0 = List.replicate (j' + 1) 0 := by
    simp [List.replicate_succ]
  rw [h01]
  cases rest with
  | nil => simp [factorsOfAux, factorsOf]
  | cons r rest' =>
    have hrd : r ≠ d := by simpa using hne
    simp only [factorsOfAux, if_neg hrd]
    have hQ : (if 1 + j' > 1 then patchF (List.replicate (j' + 1) (0:ℚ)) (1 + j')
          else List.replicate (j' + 1) 0) =
        (if (r :: rest') = ([] : List ℤ) then List.replicate (j' + 1) (0:ℚ) else
          if j' + 1 = 1 then ([0] : List ℚ) else ramp (j' + 1)) := by
      by_cases hj' : j' = 0
      · subst hj'
        simp
      · rw [if_pos (by omega), if_neg (by simp), if_neg (by omega)]
        have hlen : (List.replicate (j' + 1) (0:ℚ)).length - (1 + j') = 0 := by
          rw [List.length_replicate]
          omega
        rw [patchF, hlen, List.take_zero, List.nil_append, Nat.add_comm]
    rw [hQ, factorsOfAux_prefix rest' r 1 _ [0] (by simp), factorsOf_start]

theorem factorsOf_length (s : List ℤ) : (factorsOf s).length = s.length := by
  rw [factorsOf, factorsOfAux_length s 0 0 [] (by simp)]
  simp

theorem run_slice_head (k : ℕ) (c : ℤ) (t : List ℤ) (hk : 1 ≤ k) (ht : t.head? ≠ some c) :
    (factorsOf (List.replicate k c ++ t)).take k =
      if t = [] then List.replicate k 0 else if k = 1 then ([0] : List ℚ) else ramp k := by
  rw [factorsOf_peel k c t hk ht]
  have hQ : (if t = [] then List.replicate k (0:ℚ) else
      if k = 1 then ([0] : List ℚ) else ramp k).length = k := by
    split_ifs with h1 h2
    · simp
    · simp [h2]
    · exact ramp_length k
  rw [List.take_left' hQ]

theorem factorsOf_run_slice : ∀ (fuel : ℕ) (s₁ : List ℤ) (k : ℕ) (c : ℤ) (t : List ℤ),
    s₁.length ≤ fuel → 1 ≤ k → s₁.getLast? ≠ some c → t.head? ≠ some c →
    ((factorsOf (s₁ ++ (List.replicate k c ++ t))).drop s₁.length).take k =
      if t = [] then List.replicate k 0 else if k = 1 then ([0] : List ℚ) else ramp k
  | _, [], k, c, t, _, hk, _, ht => by
    simpa using run_slice_head k c t hk ht
  | 0, a :: s₁', k, c, t, hle, _, _, _ => by
    simp at hle
  | fuel + 1, a :: s₁', k, c, t, hle, hk, hlast, ht => by
    set p : ℤ → Bool := fun x => decide (x = a) with hp
    have hpa : p a = true := by simp [hp]
    set tw := List.takeWhile p (a :: s₁') with htw_def
    set dw := List.dropWhile p (a :: s₁') with hdw_def
    have htwdw : tw ++ dw = a :: s₁' := List.takeWhile_append_dropWhile p _
    have htw_len_pos : 1 ≤ tw.length := by
      rw [htw_def, List.takeWhile_cons_of_pos hpa]
      simp
    have htw_repl : tw = List.replicate tw.length a := by
      rw [List.eq_replicate_iff]
      refine ⟨rfl, fun b hb => ?_⟩
      rw [htw_def] at hb
      have hpb := List.mem_takeWhile_imp hb
      rw [hp] at hpb
      exact of_decide_eq_true hpb
    have hdw_head : ∀ x, dw.head? = some x → x ≠ a := by
      intro x hx hxa
      have hnot := List.head?_dropWhile_not p (a :: s₁')
      rw [← hdw_def, hx] at hnot
      rw [hxa] at hnot
      simp [hp] at hnot
    have hlen_sum : tw.length + dw.length = s₁'.length + 1 := by
      have hc := congrArg List.length htwdw
      simpa using hc
    have hle' : s₁'.length ≤ fuel := by simpa using hle
    have hdw_le : dw.length ≤ fuel := by omega
    have hassoc : (a :: s₁') ++ (List.replicate k c ++ t) =
        List.replicate tw.length a ++ (dw ++ (List.replicate k c ++ t)) := by
      conv_lhs => rw [← htwdw, htw_repl]
      rw [List.append_assoc]
    have hrest_head : (dw ++ (List.replicate k c ++ t)).head? ≠ some a := by
      cases hdwcase : dw with
      | nil =>
        have hs1 : a :: s₁' = List.replicate tw.length a := by
          rw [← htwdw, hdwcase, List.append_nil]
          exact htw_repl
        have hlast_a : (a :: s₁').getLast? = some a := by
          rw [hs1]
          obtain ⟨m, hm⟩ : ∃ m, tw.length = m + 1 := ⟨tw.length - 1, by omega⟩
          rw [hm, List.replicate_succ', List.getLast?_concat]
        have hca : c ≠ a := by
          intro hca
          exact hlast (hca ▸ hlast_a)
        rw [List.nil_append]
        obtain ⟨k', hk'⟩ : ∃ k', k = k' + 1 := ⟨k - 1, by omega⟩
        rw [hk', List.replicate_succ, List.cons_append, List.head?_cons]
        intro hsome
        exact hca (by simpa using hsome)
      | cons y dw' =>
        rw [List.cons_append, List.head?_cons]
        intro hsome
        exact hdw_head y (by rw [hdwcase]; rfl) (by simpa using hsome)
    rw [hassoc, factorsOf_peel tw.length a _ htw_len_pos hrest_head]
    have hQlen : (if dw ++ (List.replicate k c ++ t) = [] then List.replicate tw.length (0:ℚ)
        else if tw.length = 1 then ([0] : List ℚ) else ramp tw.length).length = tw.length := by
      split_ifs with h1 h2
      · simp
      · simp [h2]
      · exact ramp_length tw.length
    rw [List.drop_append_eq_append_drop, hQlen]
    have hlen1 : (a :: s₁').length = tw.length + dw.length := by
      simp
      omega
    rw [List.drop_eq_nil_of_le (by rw [hQlen, hlen1]; omega)]
    rw [List.nil_append, hlen1, Nat.add_sub_cancel_left]
    have hdw_last : dw.getLast? ≠ some c := by
      cases hdwcase : dw with
      | nil => simp
      | cons y dw' =>
        intro hcon
        apply hlast
        rw [← htwdw, hdwcase]
        rw [List.getLast?_append_of_ne_nil tw (by simp)]
        exact hdwcase ▸ hcon
    exact factorsOf_run_slice fuel dw k c t hdw_le hk hdw_last ht

theorem buildBarsAux_map_factor : ∀ (bins : List ℤ) (pb pi : ℤ) (n : ℕ)
    (acc : List Bar) (i : ℕ), n ≤ acc.length →
    (buildBarsAux pb pi n acc i bins).map (fun b => b.factor) =
      factorsOfAux pi n (acc.map (fun b => b.factor)) (idxsFrom pb bins)
  | [], _, _, _, acc, _, _ => by simp [buildBarsAux, idxsFrom, factorsOfAux]
  | bin :: rest, pb, pi, n, acc, i, hn => by
    simp only [buildBarsAux, idxsFrom, factorsOfAux]
    by_cases hidx : (if pb > 0 ∧ pb + 1 ≤ bin then pb + 1 else bin) = pi
    · simp only [if_pos hidx]
      rw [buildBarsAux_map_factor rest _ _ _ _ _ (by simp; omega)]
      congr 1
      simp
    · simp only [if_neg hidx]
      rw [buildBarsAux_map_factor rest _ _ 1 _ _ (by simp)]
      congr 1
      by_cases hn1 : n > 1
      · simp [hn1, patchRun_map_factor acc n hn]
      · simp [hn1]

theorem buildBars_map_factor (bins : List ℤ) :
    (buildBars bins).map (fun b => b.factor) = factorsOf (idxsFrom 0 bins) := by
  rw [buildBars, buildBarsAux_map_factor bins 0 0 0 [] 0 (by simp)]
  rfl

/-- Claim C5 (amended): in every `BarTable` produced by the walk, a maximal
run of `k` consecutive bars sharing one primary bin that is FOLLOWED by a bar
with a different bin carries interpolation factors exactly
`1/k, 2/k, …, k/k` in position order when `k ≥ 2`, and factor `0` when
`k = 1`; a maximal run that reaches the END of the table is never patched and
all its bars keep factor `0` (also when `k ≥ 2`). -/
theorem claim_C5_amended (bins s₁ : List ℤ) (k : ℕ) (c : ℤ) (t : List ℤ)
    (hk : 1 ≤ k)
    (hdecomp : (buildBars bins).map (fun b => b.dataIdx) = s₁ ++ (List.replicate k c ++ t))
    (hlast : s₁.getLast? ≠ some c) (hhead : t.head? ≠ some c) :
    (((buildBars bins).map (fun b => b.factor)).drop s₁.length).take k =
      if t = [] then List.replicate k 0 else if k = 1 then ([0] : List ℚ) else ramp k := by
  rw [buildBars_map_factor, ← buildBars_map_dataIdx, hdecomp]
  exact factorsOf_run_slice s₁.length s₁ k c t (le_refl _) hk hlast hhead

/-- Witness for C5 (amended): bins `[1, 1, 3]` give a mid-table run of length
2 on bin 1, whose factors are the ramp `[1/2, 1]`. -/
theorem claim_C5_witness :
    1 ≤ 2 ∧
    (buildBars [1, 1, 3]).map (fun b => b.dataIdx) =
      [] ++ (List.replicate 2 (1:ℤ) ++ [3]) ∧
    ([] : List ℤ).getLast? ≠ some 1 ∧ ([3] : List ℤ).head? ≠ some 1 ∧
    (((buildBars [1, 1, 3]).map (fun b => b.factor)).drop ([] : List ℤ).length).take 2 =
      (if ([3] : List ℤ) = [] then List.replicate 2 0 else
        if 2 = 1 then ([0] : List ℚ) else ramp 2) :=
  ⟨by norm_num,
    by norm_num [buildBars, buildBarsAux, extendPrevBin, round_eq, List.replicate,
      patchRun, patchFun, List.enum, List.enumFrom],
    by simp, by simp,
    claim_C5_amended [1, 1, 3] [] 2 1 [3] (by norm_num)
      (by norm_num [buildBars, buildBarsAux, extendPrevBin, round_eq, List.replicate,
        patchRun, patchFun, List.enum, List.enumFrom])
      (by simp) (by simp)⟩

/-- Counterexample to claim C5 as stated: the frequencies 20 Hz and 21 Hz at
48 kHz both map to bin 1, a maximal run of length 2 that extends to the final
bar of the table; the claim demands factors `[1/2, 1]` but the walk never
patches the final run, so both factors stay `0`. -/
theorem claim_C5_counterexample :
    (buildBars ([(20:ℚ), 21].map (freqToBin 48000))).map (fun b => b.dataIdx) = [1, 1] ∧
    (buildBars ([(20:ℚ), 21].map (freqToBin 48000))).map (fun b => b.factor) = [0, 0] ∧
    ¬ (([0, 0] : List ℚ) = [1/2, 1]) := by
  have hbins : [(20:ℚ), 21].map (freqToBin 48000) = [1, 1] := by
    norm_num [freqToBin, round_eq, fftSize, fftOrder]
  refine ⟨?_, ?_, by norm_num⟩
  · rw [hbins]
    norm_num [buildBars, buildBarsAux, extendPrevBin]
  · rw [hbins]
    norm_num [buildBars, buildBarsAux, extendPrevBin]

/-! ## The aggregation comparison in drawFrame (C1) -/

theorem logb_ten_2048_gt_3 : (3:ℝ) < Real.logb 10 2048 := by
  rw [Real.lt_logb_iff_rpow_lt (by norm_num) (by norm_num)]
  rw [show (3:ℝ) = ((3:ℕ):ℝ) by norm_num, Real.rpow_natCast]
  norm_num

theorem logb_ten_2048_lt_5 : Real.logb 10 2048 < 5 := by
  rw [Real.logb_lt_iff_lt_rpow (by norm_num) (by norm_num)]
  rw [show (5:ℝ) = ((5:ℕ):ℝ) by norm_num, Real.rpow_natCast]
  norm_num

theorem logb_ten_hundredth : Real.logb 10 (1/100 : ℝ) = -2 := by
  rw [show (1/100:ℝ) = ((100:ℝ))⁻¹ by norm_num, Real.logb_inv]
  rw [show (100:ℝ) = (10:ℝ) ^ (2:ℕ) by norm_num, Real.logb_pow,
    Real.logb_self_eq_one (by norm_num)]
  norm_num

theorem gainToDecibels_fftSize :
    gainToDecibels ((fftSize : ℕ) : ℝ) = 20 * Real.logb 10 2048 := by
  have hL3 := logb_ten_2048_gt_3
  rw [show (((fftSize : ℕ)) : ℝ) = (2048:ℝ) by norm_num [fftSize, fftOrder]]
  rw [gainToDecibels, if_pos (by norm_num : (0:ℝ) < 2048)]
  exact max_eq_right (by linarith)

theorem getLevel_c1_bin3 : getLevel c1Spectrum 3 1000 = 1000 := by
  have hL3 := logb_ten_2048_gt_3
  have hfd3 : c1Spectrum 3 = 1/100 := by norm_num [c1Spectrum]
  have hg3 : gainToDecibels (c1Spectrum 3) = -40 := by
    rw [hfd3, gainToDecibels, if_pos (by norm_num : (0:ℝ) < 1/100), logb_ten_hundredth]
    norm_num
  simp only [getLevel, hg3, gainToDecibels_fftSize]
  rw [jlimit, if_pos (by linarith : (-40:ℝ) - 20 * Real.logb 10 2048 < -100)]
  rw [jmap]
  norm_num

theorem getLevel_c1_bin4 : getLevel c1Spectrum 4 1000 = 200 * Real.logb 10 2048 := by
  have hL3 := logb_ten_2048_gt_3
  have hL5 := logb_ten_2048_lt_5
  have hfd4 : c1Spectrum 4 = 1 := by norm_num [c1Spectrum]
  have hg4 : gainToDecibels (c1Spectrum 4) = 0 := by
    rw [hfd4, gainToDecibels, if_pos (by norm_num : (0:ℝ) < 1), Real.logb_one]
    norm_num
  simp only [getLevel, hg4, gainToDecibels_fftSize]
  rw [jlimit, if_neg (not_lt.mpr (by linarith : (-100:ℝ) ≤ 0 - 20 * Real.logb 10 2048)),
    if_neg (not_lt.mpr (by linarith : (0:ℝ) - 20 * Real.logb 10 2048 ≤ 0))]
  rw [jmap]
  field_simp
  ring

/-- Claim C1 divergence: the aggregation branch of `drawFrame` compares the
raw magnitude `fftData[j]` against `barHeight`, a PIXEL value, so the
reported height is not the level of the loudest bin of the range.  On the
spectrum `c1Spectrum` (bin 3 quiet at 1/100, bin 4 loud at 1) with canvas
height 1000 and bin range `[3, 4]`: bin 4 is strictly the loudest and its
level is strictly below 1000, yet `drawFrame` reports 1000 (the silent
floor) because the quiet bin's floor level 1000 blocks the comparison
`fftData[4] > barHeight`. -/
theorem claim_C1_divergence :
    aggBarHeight c1Spectrum 1000 3 4 = 1000 ∧
    c1Spectrum 3 < c1Spectrum 4 ∧
    getLevel c1Spectrum 4 1000 < 1000 := by
  have hL5 := logb_ten_2048_lt_5
  refine ⟨?_, by norm_num [c1Spectrum], by rw [getLevel_c1_bin4]; linarith⟩
  simp only [aggBarHeight]
  rw [show (4 + 1 - 3 : ℕ) = 2 from rfl, show List.range' 3 2 = [3, 4] from rfl]
  simp only [List.foldl_cons, List.foldl_nil]
  rw [if_pos (by norm_num [c1Spectrum] : c1Spectrum 3 > 0), getLevel_c1_bin3]
  rw [if_neg (by norm_num [c1Spectrum] : ¬ c1Spectrum 4 > 1000)]
